import Mathlib

/-!
Verification development for the nondjango-storages path-normalization and
backend-dispatch layer (`nondjango/storages/storages.py` and
`nondjango/storages/files.py`).

Python strings are modelled as `List Char`; Python exceptions as an explicit
error type threaded through `Except`.  Every definition is a direct
translation of the corresponding source function.
-/

abbrev PyStr := List Char

/-- The Python exceptions raised by the code under study. -/
inductive PyErr where
  | valueError
  | suspicious
  | ioMode
  | fileNotFound
  | unicodeDecode
  | runtime
  | keyError
  | assertionError
  deriving DecidableEq, Repr

instance {ε α : Type} [DecidableEq ε] [DecidableEq α] : DecidableEq (Except ε α) :=
  fun x y =>
    match x, y with
    | .ok a, .ok b => if h : a = b then .isTrue (by rw [h]) else .isFalse (by simp [h])
    | .error a, .error b => if h : a = b then .isTrue (by rw [h]) else .isFalse (by simp [h])
    | .ok _, .error _ => .isFalse (by simp)
    | .error _, .ok _ => .isFalse (by simp)

/-- Python `s.split(sep)` for a one-character separator. -/
def splitChar (sep : Char) : List Char → List (List Char)
  | [] => [[]]
  | c :: rest =>
    if c = sep then [] :: splitChar sep rest
    else
      match splitChar sep rest with
      | [] => [[c]]
      | x :: xs => (c :: x) :: xs

/-- Python `sep.join(parts)` for the separator `'/'` (each part free of `'/'`
in all our uses). -/
def joinComps : List PyStr → PyStr
  | [] => []
  | [x] => x
  | x :: xs => x ++ '/' :: joinComps xs

/-- The component-filtering loop of `posixpath.normpath`: `acc` is the
`new_comps` list kept in reverse (Python appends/pops at the right end). -/
def normLoop (isl : Nat) (acc : List PyStr) : List PyStr → List PyStr
  | [] => acc.reverse
  | comp :: rest =>
    if comp.isEmpty || comp == ".".data then normLoop isl acc rest
    else if !(comp == "..".data) || (isl == 0 && acc.isEmpty) ||
            (acc.head? == some "..".data) then
      normLoop isl (comp :: acc) rest
    else
      match acc with
      | _ :: acc' => normLoop isl acc' rest
      | [] => normLoop isl acc rest

/-- `posixpath.normpath`: POSIX-style collapsing of `.`, `..` and redundant
separators. -/
def normpath (path : PyStr) : PyStr :=
  if path.isEmpty then ".".data
  else
    let isl : Nat :=
      if "//".data.isPrefixOf path && !("///".data.isPrefixOf path) then 2
      else if "/".data.isPrefixOf path then 1
      else 0
    let comps := normLoop isl [] (splitChar '/' path)
    let p := List.replicate isl '/' ++ joinComps comps
    if p.isEmpty then ".".data else p

/-- `posixpath.join` restricted to two arguments, as used by `safe_join`,
`os.path.join` on POSIX, and `abspath`. -/
def posixJoin (a b : PyStr) : PyStr :=
  if "/".data.isPrefixOf b then b
  else if a.isEmpty || "/".data.isSuffixOf a then a ++ b
  else a ++ '/' :: b

/-- Python `s.rstrip(sep)` for the single character `'/'`. -/
def pyRstripSlash (s : PyStr) : PyStr :=
  (s.reverse.dropWhile (fun c => c = '/')).reverse

/-- Python `s.lstrip(sep)` for the single character `'/'`. -/
def pyLstripSlash (s : PyStr) : PyStr :=
  s.dropWhile (fun c => c = '/')

/-- One iteration of the `for path in paths` loop of `safe_join`: normalize
the join and restore a trailing separator when the segment demands one or
when the normalized path plus a separator equals the previous accumulator. -/
def joinStep (acc p : PyStr) : PyStr :=
  let f := normpath (posixJoin acc p)
  if "/".data.isSuffixOf p || (f ++ ['/'] == acc) then f ++ ['/'] else f

/-- The whole segment-folding loop of `safe_join`. -/
def foldPaths (acc : PyStr) : List PyStr → PyStr
  | [] => acc
  | p :: ps => foldPaths (joinStep acc p) ps

/-- The final accumulated path of `safe_join` after the loop and after the
degenerate-root guard (`if final_path == base_path: final_path += '/'`). -/
def finalJoined (base : PyStr) (paths : List PyStr) : PyStr :=
  let basePath := pyRstripSlash base
  let f := foldPaths (basePath ++ ['/']) paths
  if f == basePath then f ++ ['/'] else f

/-- `safe_join` from `storages.py`: joins segments onto the base, checks the
result literally starts with the stripped base followed by `'/'`, raising
`ValueError` otherwise, and strips a leading separator when the base was not
absolute.  The out-of-range index read `final_path[base_path_len]` is
modelled with a total `getD` whose default `'A'` differs from `'/'`; Python
can only reach the index when `startswith` already holds, in which case the
index is in range, so the semantics agree. -/
def safe_join (base : PyStr) (paths : List PyStr) : Except PyErr PyStr :=
  let basePath := pyRstripSlash base
  let final := finalJoined base paths
  if basePath.isPrefixOf final && (final.getD basePath.length 'A' == '/') then
    .ok (if "/".data.isPrefixOf base then final else pyLstripSlash final)
  else .error .valueError

/-- `BaseStorage._normalize_name`: `safe_join` against the working directory,
with `ValueError` surfaced to callers as `SuspiciousOperation`. -/
def normalizeName (workdir name : PyStr) : Except PyErr PyStr :=
  match safe_join workdir [name] with
  | .ok p => .ok p
  | .error _ => .error .suspicious


theorem getD_append_cons (a : PyStr) (c : Char) (t : PyStr) (d : Char) :
    (a ++ c :: t).getD a.length d = c := by
  induction a with
  | nil => rfl
  | cons x xs ih => simpa using ih

theorem pyRstripSlash_prefix (s : PyStr) : pyRstripSlash s <+: s := by
  have h := List.dropWhile_suffix (l := s.reverse) (fun c => decide (c = '/'))
  have h2 := List.reverse_prefix.mpr h
  simpa [pyRstripSlash] using h2

theorem pyRstripSlash_head_ne (base : PyStr) (hb : "/".data.isPrefixOf base = false)
    (c : Char) (t : PyStr) (h : pyRstripSlash base = c :: t) : c ≠ '/' := by
  intro hc
  have hp := pyRstripSlash_prefix base
  rw [h, hc] at hp
  have htrue : "/".data.isPrefixOf base = true := by
    rw [ List.isPrefixOf_iff_prefix]
    exact List.IsPrefix.trans ⟨t, rfl⟩ hp
  rw [htrue] at hb
  exact absurd hb (by simp)

theorem allSlash_isPrefixOf (s : PyStr) (h : pyRstripSlash s = []) (h0 : s ≠ []) :
    "/".data.isPrefixOf s = true := by
  have hd : s.reverse.dropWhile (fun c => decide (c = '/')) = [] := by
    have h2 := congrArg List.reverse h
    simpa [pyRstripSlash] using h2
  have hall : ∀ x ∈ s.reverse, x = '/' := by
    intro x hx
    have h3 := List.dropWhile_eq_nil_iff.mp hd x hx
    simpa using h3
  cases s with
  | nil => exact absurd rfl h0
  | cons c u =>
    have hc : c = '/' := hall c (by simp)
    rw [ List.isPrefixOf_iff_prefix]
    exact hc ▸ ⟨u, rfl⟩

theorem pyLstripSlash_cons (c : Char) (t : PyStr) (h : c ≠ '/') :
    pyLstripSlash (c :: t) = c :: t := by
  simp [pyLstripSlash, List.dropWhile_cons, h]

theorem append_slash_ne (bp : PyStr) : ¬ (bp ++ ['/'] = bp) := by
  intro h
  have h2 := congrArg List.length h
  simp at h2

theorem safe_join_eq_ok (base : PyStr) (paths : List PyStr)
    (h1 : (pyRstripSlash base).isPrefixOf (finalJoined base paths) = true)
    (h2 : (finalJoined base paths).getD (pyRstripSlash base).length 'A' = '/') :
    safe_join base paths =
      .ok (if "/".data.isPrefixOf base then finalJoined base paths
           else pyLstripSlash (finalJoined base paths)) := by
  simp only [safe_join]
  rw [h1, h2]
  rfl

theorem safe_join_eq_err (base : PyStr) (paths : List PyStr)
    (h : ((pyRstripSlash base).isPrefixOf (finalJoined base paths) &&
          ((finalJoined base paths).getD (pyRstripSlash base).length 'A' == '/')) = false) :
    safe_join base paths = .error .valueError := by
  simp only [safe_join]
  rw [h]
  rfl

theorem posixJoin_nil_right (a : PyStr) (h : "/".data.isSuffixOf a = true) :
    posixJoin a [] = a := by
  simp only [posixJoin]
  rw [if_neg (by decide), if_pos (by rw [h]; simp)]
  simp

theorem isSuffixOf_append_slash (a : PyStr) : "/".data.isSuffixOf (a ++ ['/']) = true := by
  rw [ List.isSuffixOf_iff_suffix]
  exact List.suffix_append a ['/']

/-- C1, counterexample: the claim quantifies over every root `R`, but for the
realistic root `"/"` (and likewise for the empty root) `safe_join` succeeds
with a result that does not start with `R ++ "/"`, even though the
normalized accumulated path lies under the stripped root. -/
theorem safe_join_root_prefix_cex :
    ((pyRstripSlash "/".data ++ ['/']) <+: finalJoined "/".data ["x".data]) ∧
    safe_join "/".data ["x".data] = .ok "/x".data ∧
    ¬ (("/".data ++ ['/']) <+: "/x".data) ∧
    safe_join "".data ["x".data] = .ok "x".data ∧
    ¬ (("".data ++ ['/']) <+: "x".data) := by
  decide

/-- C1 (amended): for every nonempty root `base` and all segment sequences
whose accumulated normalized join lies under the trailing-separator-stripped
root (starts with `pyRstripSlash base ++ "/"`), `safe_join` succeeds and
returns a path starting with the stripped root followed by `'/'`. -/
theorem safe_join_contained (base : PyStr) (paths : List PyStr)
    (h0 : base ≠ [])
    (h : (pyRstripSlash base ++ ['/']) <+: finalJoined base paths) :
    ∃ r, safe_join base paths = .ok r ∧ (pyRstripSlash base ++ ['/']) <+: r := by
  have h1 : (pyRstripSlash base).isPrefixOf (finalJoined base paths) = true := by
    rw [ List.isPrefixOf_iff_prefix]
    exact List.IsPrefix.trans (List.prefix_append _ _) h
  obtain ⟨t, ht⟩ := h
  rw [List.append_assoc] at ht
  have h2 : (finalJoined base paths).getD (pyRstripSlash base).length 'A' = '/' := by
    rw [← ht]
    exact getD_append_cons ..
  rw [safe_join_eq_ok base paths h1 h2]
  by_cases hb : "/".data.isPrefixOf base = true
  · rw [if_pos hb]
    exact ⟨_, rfl, ⟨t, by rw [List.append_assoc]; exact ht⟩⟩
  · have hb' : "/".data.isPrefixOf base = false := (Bool.not_eq_true _) ▸ hb
    have hne : pyRstripSlash base ≠ [] := fun hnil =>
      absurd (allSlash_isPrefixOf base hnil h0) hb
    have hl : pyLstripSlash (finalJoined base paths) = finalJoined base paths := by
      obtain ⟨c, u, hcu⟩ : ∃ c u, pyRstripSlash base = c :: u := by
        cases hx : pyRstripSlash base with
        | nil => exact absurd hx hne
        | cons c u => exact ⟨c, u, rfl⟩
      have hc : c ≠ '/' := pyRstripSlash_head_ne base hb' c u hcu
      have hF : finalJoined base paths = c :: (u ++ '/' :: t) := by
        rw [← ht, hcu]
        simp
      rw [hF]
      exact pyLstripSlash_cons c _ hc
    rw [if_neg hb, hl]
    exact ⟨_, rfl, ⟨t, by rw [List.append_assoc]; exact ht⟩⟩

theorem safe_join_contained_w :
    "/base".data ≠ [] ∧
    ((pyRstripSlash "/base".data ++ ['/']) <+: finalJoined "/base".data ["sub".data]) ∧
    ∃ r, safe_join "/base".data ["sub".data] = .ok r ∧
      (pyRstripSlash "/base".data ++ ['/']) <+: r :=
  ⟨by decide, by decide, safe_join_contained _ _ (by decide) (by decide)⟩

/-- C2: `safe_join("/base", "../evil")` raises `ValueError` (surfaced by
`_normalize_name` as `SuspiciousOperation`), `safe_join("/base",
"sub/../file.txt")` returns exactly `"/base/file.txt"`, the deep escape
`"../../../../etc/passwd"` is rejected, and in general every segment
sequence whose accumulated normalized path escapes the stripped root is
rejected with `ValueError` rather than returning a path. -/
theorem safe_join_escape_cases :
    safe_join "/base".data ["../evil".data] = .error .valueError ∧
    normalizeName "/base".data "../evil".data = .error .suspicious ∧
    safe_join "/base".data ["sub/../file.txt".data] = .ok "/base/file.txt".data ∧
    safe_join "/base".data ["../../../../etc/passwd".data] = .error .valueError ∧
    ∀ base paths, ¬ ((pyRstripSlash base ++ ['/']) <+: finalJoined base paths) →
      safe_join base paths = .error .valueError := by
  refine ⟨by decide, by decide, by decide, by decide, ?_⟩
  intro base paths h
  apply safe_join_eq_err
  by_cases hpre : (pyRstripSlash base).isPrefixOf (finalJoined base paths) = true
  · obtain ⟨t, ht⟩ := List.isPrefixOf_iff_prefix.mp hpre
    cases t with
    | nil =>
      have hg : (finalJoined base paths).getD (pyRstripSlash base).length 'A' = 'A' := by
        apply List.getD_eq_default
        rw [← ht]
        simp
      rw [hg]
      have hAf : ('A' == '/') = false := by decide
      rw [hAf, Bool.and_false]
    | cons c t' =>
      by_cases hc : c = '/'
      · subst hc
        exact absurd ⟨t', by rw [List.append_assoc]; exact ht⟩ h
      · have hg : (finalJoined base paths).getD (pyRstripSlash base).length 'A' = c := by
          rw [← ht]
          exact getD_append_cons ..
        rw [hg]
        have hcf : (c == '/') = false := by simpa using hc
        rw [hcf, Bool.and_false]
  · have hp : (pyRstripSlash base).isPrefixOf (finalJoined base paths) = false :=
      (Bool.not_eq_true _) ▸ hpre
    rw [hp, Bool.false_and]

theorem safe_join_escape_cases_w :
    ¬ ((pyRstripSlash "/base".data ++ ['/']) <+: finalJoined "/base".data ["../evil".data]) ∧
    safe_join "/base".data ["../evil".data] = .error .valueError :=
  ⟨by decide, safe_join_escape_cases.2.2.2.2 _ _ (by decide)⟩

/-- C3, counterexample: for the root `"/"` the claim demands the result
`"//"` but `safe_join` returns `"/"`, and for the non-normalized root
`"a/./b"` joining the empty segment raises `ValueError` although the claim
says it never raises. -/
theorem safe_join_empty_cex :
    safe_join "/".data ["".data] = .ok "/".data ∧
    "/".data ≠ "/".data ++ ['/'] ∧
    safe_join "a/./b".data ["".data] = .error .valueError := by
  decide

/-- C3 (amended): for every nonempty root whose trailing-separator-stripped
form `bp` is either empty (the root is all separators) or satisfies
`normpath (bp ++ "/") = bp` (the root is already normalized), joining the
single empty segment returns `bp ++ "/"` without raising. -/
theorem safe_join_empty_segment (base : PyStr) (h0 : base ≠ [])
    (h : pyRstripSlash base = [] ∨
         normpath (pyRstripSlash base ++ ['/']) = pyRstripSlash base) :
    safe_join base [[]] = .ok (pyRstripSlash base ++ ['/']) := by
  rcases h with hl | hr
  · have habs : "/".data.isPrefixOf base = true := allSlash_isPrefixOf base hl h0
    have hF : finalJoined base [[]] = ['/'] := by
      simp only [finalJoined, hl]
      decide
    rw [safe_join_eq_ok base [[]] (by rw [hF, hl]; decide) (by rw [hF, hl]; decide)]
    rw [if_pos habs, hF, hl]
    rfl
  · have hb' : pyRstripSlash base ≠ [] := by
      intro hnil
      rw [hnil] at hr
      exact absurd hr (by decide)
    have hstep : foldPaths (pyRstripSlash base ++ ['/']) [[]] = pyRstripSlash base ++ ['/'] := by
      show joinStep (pyRstripSlash base ++ ['/']) [] = _
      simp only [joinStep]
      rw [posixJoin_nil_right _ (isSuffixOf_append_slash _), hr]
      rw [if_pos]
      simp
    have hF : finalJoined base [[]] = pyRstripSlash base ++ ['/'] := by
      simp only [finalJoined]
      rw [hstep, if_neg]
      intro hq
      simp at hq
    rw [safe_join_eq_ok base [[]] ?h1 ?h2]
    case h1 =>
      rw [hF, List.isPrefixOf_iff_prefix]
      exact List.prefix_append _ _
    case h2 =>
      rw [hF]
      exact getD_append_cons ..
    by_cases hb : "/".data.isPrefixOf base = true
    · rw [if_pos hb, hF]
    · rw [if_neg hb, hF]
      cases hbp : pyRstripSlash base with
      | nil => exact absurd hbp hb'
      | cons c u =>
        have hc : c ≠ '/' :=
          pyRstripSlash_head_ne base ((Bool.not_eq_true _) ▸ hb) c u hbp
        have hls : pyLstripSlash ((c :: u) ++ ['/']) = (c :: u) ++ ['/'] := by
          have h5 := pyLstripSlash_cons c (u ++ ['/']) hc
          simpa using h5
        rw [hls]

theorem safe_join_empty_segment_w :
    "/base".data ≠ [] ∧
    normpath (pyRstripSlash "/base".data ++ ['/']) = pyRstripSlash "/base".data ∧
    safe_join "/base".data [[]] = .ok (pyRstripSlash "/base".data ++ ['/']) :=
  ⟨by decide, by decide, safe_join_empty_segment _ (by decide) (Or.inr (by decide))⟩

/-- `os.path.commonprefix` applied to two component lists: the length of
their common leading run. -/
def commonPrefixLen : List PyStr → List PyStr → Nat
  | a :: as, b :: bs => if a = b then commonPrefixLen as bs + 1 else 0
  | _, _ => 0

/-- `posixpath.abspath` with the process working directory made explicit:
a relative path is joined onto `cwd` and the result normalized. -/
def abspath (cwd path : PyStr) : PyStr :=
  if "/".data.isPrefixOf path then normpath path else normpath (posixJoin cwd path)

/-- `os.path.relpath(path)` on POSIX with the default start `'.'`, relative
to an explicit current working directory `cwd`.  No filesystem access is
involved; only `cwd` enters the computation. -/
def relpath (cwd path : PyStr) : PyStr :=
  let startList := (splitChar '/' (abspath cwd ".".data)).filter (fun x => !x.isEmpty)
  let pathList := (splitChar '/' (abspath cwd path)).filter (fun x => !x.isEmpty)
  let i := commonPrefixLen startList pathList
  let relList := List.replicate (startList.length - i) "..".data ++ pathList.drop i
  if relList.isEmpty then ".".data else joinComps relList

/-- `BaseStorage.get_valid_name`: the relative form of the name (an empty
name short-circuits to the empty string), rejected with
`SuspiciousOperation` exactly when it starts with `"../"`. -/
def getValidName (cwd name : PyStr) : Except PyErr PyStr :=
  let walked := if name.isEmpty then [] else relpath cwd name
  if "../".data.isPrefixOf walked then .error .suspicious else .ok walked


theorem getValidName_nonempty (cwd name : PyStr) (h0 : name.isEmpty = false) :
    getValidName cwd name =
      if "../".data.isPrefixOf (relpath cwd name) then .error .suspicious
      else .ok (relpath cwd name) := by
  simp only [getValidName, h0]
  simp

/-- C4: for every working directory and every nonempty caller-supplied name
whose relative form (computed purely from `cwd`, with no I/O) begins with
the parent-escape prefix `"../"`, `BaseStorage.get_valid_name` raises
`SuspiciousOperation`.  This pre-check sits in `get_valid_name`, a function
distinct from (and running before) `safe_join`'s containment check. -/
theorem get_valid_name_rejects_escape (cwd name : PyStr) (h0 : name ≠ [])
    (h : "../".data.isPrefixOf (relpath cwd name) = true) :
    getValidName cwd name = .error .suspicious := by
  have h0' : name.isEmpty = false := by
    cases name with
    | nil => exact absurd rfl h0
    | cons c t => rfl
  rw [getValidName_nonempty cwd name h0', if_pos h]

theorem get_valid_name_rejects_escape_w :
    "../x".data ≠ [] ∧
    "../".data.isPrefixOf (relpath "/a/b".data "../x".data) = true ∧
    getValidName "/a/b".data "../x".data = .error .suspicious :=
  ⟨by decide, by decide, get_valid_name_rejects_escape _ _ (by decide) (by decide)⟩

/-- C10: the validator rejects only relative forms beginning with the
three-character prefix `"../"`; in particular a name whose relative form is
exactly `".."` is accepted and returned unchanged, and more generally any
name whose relative form lacks the `"../"` prefix is returned as-is. -/
theorem get_valid_name_accepts_dotdot (cwd name : PyStr) (h0 : name ≠ []) :
    (relpath cwd name = "..".data → getValidName cwd name = .ok "..".data) ∧
    ("../".data.isPrefixOf (relpath cwd name) = false →
      getValidName cwd name = .ok (relpath cwd name)) := by
  have h0' : name.isEmpty = false := by
    cases name with
    | nil => exact absurd rfl h0
    | cons c t => rfl
  constructor
  · intro hr
    rw [getValidName_nonempty cwd name h0', hr, if_neg (by decide)]
  · intro hnp
    rw [getValidName_nonempty cwd name h0', if_neg (by rw [hnp]; exact Bool.false_ne_true)]

theorem get_valid_name_accepts_dotdot_w :
    "..".data ≠ [] ∧ relpath "/a".data "..".data = "..".data ∧
    getValidName "/a".data "..".data = .ok "..".data :=
  ⟨by decide, by decide, (get_valid_name_accepts_dotdot _ _ (by decide)).1 (by decide)⟩

/-- Python `s.replace('//', '/')`: left-to-right non-overlapping replacement
of each doubled separator by a single one. -/
def collapseOnce : PyStr → PyStr
  | [] => []
  | [c] => [c]
  | c :: d :: rest =>
    if c = '/' ∧ d = '/' then '/' :: collapseOnce rest
    else c :: collapseOnce (d :: rest)

/-- Whether a string contains a doubled separator `"//"`. -/
def hasDS : PyStr → Bool
  | c :: d :: rest => if c = '/' ∧ d = '/' then true else hasDS (d :: rest)
  | _ => false

theorem hasDS_eq_of_not (c d : Char) (rest : PyStr) (h : ¬ (c = '/' ∧ d = '/')) :
    hasDS (c :: d :: rest) = hasDS (d :: rest) := by
  simp only [hasDS]
  rw [if_neg h]

theorem hasDS_cons_cons_false (c d : Char) (rest : PyStr)
    (h : hasDS (c :: d :: rest) = false) :
    ¬ (c = '/' ∧ d = '/') ∧ hasDS (d :: rest) = false := by
  by_cases hcd : c = '/' ∧ d = '/'
  · rw [show hasDS (c :: d :: rest) = true by simp [hasDS, hcd]] at h
    exact absurd h (by simp)
  · refine ⟨hcd, ?_⟩
    rw [show hasDS (c :: d :: rest) = hasDS (d :: rest) by simp [hasDS, hcd]] at h
    exact h

theorem noSlash_hasDS : ∀ s : PyStr, (∀ x ∈ s, x ≠ '/') → hasDS s = false := by
  intro s
  induction s with
  | nil => intro _; rfl
  | cons c rest ih =>
    intro h
    cases rest with
    | nil => rfl
    | cons d r2 =>
      have hc : c ≠ '/' := h c (by simp)
      have hr : ∀ x ∈ d :: r2, x ≠ '/' := fun x hx => h x (by simp [hx])
      rw [hasDS_eq_of_not c d r2 (fun hq => hc hq.1)]
      exact ih hr

theorem collapse_noDS : ∀ s : PyStr, hasDS s = false → collapseOnce s = s := by
  intro s
  induction s with
  | nil => intro _; rfl
  | cons c rest ih =>
    intro h
    cases rest with
    | nil => rfl
    | cons d r2 =>
      obtain ⟨hcd, h2⟩ := hasDS_cons_cons_false c d r2 h
      simp only [collapseOnce]
      rw [if_neg hcd, ih h2]

theorem collapse_append_noSlash :
    ∀ (s t : PyStr), (∀ x ∈ s, x ≠ '/') → collapseOnce (s ++ t) = s ++ collapseOnce t := by
  intro s
  induction s with
  | nil => intro t _; rfl
  | cons c s' ih =>
    intro t hs
    have hc : c ≠ '/' := hs c (by simp)
    have hs' : ∀ x ∈ s', x ≠ '/' := fun x hx => hs x (by simp [hx])
    cases s' with
    | nil =>
      cases t with
      | nil => rfl
      | cons d t2 =>
        show collapseOnce (c :: d :: t2) = c :: collapseOnce (d :: t2)
        simp only [collapseOnce]
        rw [if_neg (fun hq => hc hq.1)]
    | cons b s'' =>
      have hih := ih t hs'
      simp only [List.cons_append] at hih ⊢
      simp only [collapseOnce]
      rw [if_neg (fun hq => hc hq.1), hih]

theorem hasDS_slash_cons (v : PyStr) (h1 : v.head? ≠ some '/') (h2 : hasDS v = false) :
    hasDS ('/' :: v) = false := by
  cases v with
  | nil => rfl
  | cons a v2 =>
    have ha : a ≠ '/' := fun hq => h1 (by simp [hq])
    rw [hasDS_eq_of_not '/' a v2 (fun hq => ha hq.2)]
    exact h2

theorem hasDS_append_sep :
    ∀ (w v : PyStr), hasDS w = false → w.getLast? ≠ some '/' →
      v.head? ≠ some '/' → hasDS v = false → hasDS (w ++ '/' :: v) = false := by
  intro w
  induction w with
  | nil => intro v _ _ h3 h4; exact hasDS_slash_cons v h3 h4
  | cons a w' ih =>
    intro v h1 h2 h3 h4
    cases w' with
    | nil =>
      have ha : a ≠ '/' := fun hq => h2 (by simp [hq])
      show hasDS (a :: '/' :: v) = false
      rw [hasDS_eq_of_not a '/' v (fun hq => ha hq.1)]
      exact hasDS_slash_cons v h3 h4
    | cons b w'' =>
      obtain ⟨hab, hb⟩ := hasDS_cons_cons_false a b w'' h1
      have h2' : (b :: w'').getLast? ≠ some '/' := by
        rw [← List.getLast?_cons_cons]
        exact h2
      have hih := ih v hb h2' h3 h4
      show hasDS (a :: b :: (w'' ++ '/' :: v)) = false
      rw [hasDS_eq_of_not a b (w'' ++ '/' :: v) hab]
      simpa using hih

theorem splitChar_no_sep (sep : Char) :
    ∀ (s : PyStr), ∀ x ∈ splitChar sep s, sep ∉ x := by
  intro s
  induction s with
  | nil =>
    intro x hx
    simp only [splitChar] at hx
    simp only [List.mem_singleton] at hx
    simp [hx]
  | cons c rest ih =>
    intro x hx
    by_cases hc : c = sep
    · rw [show splitChar sep (c :: rest) = [] :: splitChar sep rest by
        simp [splitChar, hc]] at hx
      rcases List.mem_cons.mp hx with h1 | h1
      · simp [h1]
      · exact ih x h1
    · cases hsp : splitChar sep rest with
      | nil =>
        rw [show splitChar sep (c :: rest) = [[c]] by simp [splitChar, hc, hsp]] at hx
        have hx1 : x = [c] := by simpa using hx
        rw [hx1]
        intro hmem
        simp only [List.mem_singleton] at hmem
        exact hc hmem.symm
      | cons x0 xs =>
        rw [show splitChar sep (c :: rest) = (c :: x0) :: xs by
          simp [splitChar, hc, hsp]] at hx
        rcases List.mem_cons.mp hx with h1 | h1
        · subst h1
          intro hmem
          rcases List.mem_cons.mp hmem with h2 | h2
          · exact hc h2.symm
          · exact ih x0 (by rw [hsp]; simp) h2
        · exact ih x (by rw [hsp]; simp [h1])

theorem joinComps_good :
    ∀ l : List PyStr, (∀ x ∈ l, x ≠ [] ∧ ∀ c ∈ x, c ≠ '/') →
      hasDS (joinComps l) = false ∧ (joinComps l).head? ≠ some '/' := by
  intro l
  induction l with
  | nil => intro _; exact ⟨rfl, by simp [joinComps]⟩
  | cons x l' ih =>
    intro h
    obtain ⟨hxne, hxs⟩ := h x (by simp)
    have hl' : ∀ y ∈ l', y ≠ [] ∧ ∀ c ∈ y, c ≠ '/' := fun y hy => h y (by simp [hy])
    cases l' with
    | nil =>
      refine ⟨noSlash_hasDS x hxs, ?_⟩
      cases x with
      | nil => exact absurd rfl hxne
      | cons c u =>
        have hcx : c ≠ '/' := hxs c (by simp)
        show (c :: u).head? ≠ some '/'
        simpa using hcx
    | cons y l'' =>
      have hih := ih hl'
      have hgl : x.getLast? ≠ some '/' := by
        intro hq
        exact (hxs _ (List.mem_of_getLast?_eq_some hq)) rfl
      have heq : joinComps (x :: y :: l'') = x ++ '/' :: joinComps (y :: l'') := rfl
      constructor
      · rw [heq]
        exact hasDS_append_sep x _ (noSlash_hasDS x hxs) hgl hih.2 hih.1
      · rw [heq, List.head?_append_of_ne_nil x hxne]
        cases x with
        | nil => exact absurd rfl hxne
        | cons c u =>
          have hcx : c ≠ '/' := hxs c (by simp)
          simpa using hcx

theorem replicate_drop_good (k i : Nat) (pl : List PyStr)
    (hpl : ∀ x ∈ pl, x ≠ [] ∧ ∀ c ∈ x, c ≠ '/') :
    ∀ x ∈ List.replicate k "..".data ++ pl.drop i, x ≠ [] ∧ ∀ c ∈ x, c ≠ '/' := by
  intro x hx
  rcases List.mem_append.mp hx with h1 | h1
  · rw [List.eq_of_mem_replicate h1]
    exact ⟨by decide, by decide⟩
  · exact hpl x (List.drop_subset _ _ h1)

theorem pathList_good (cwd p : PyStr) :
    ∀ x ∈ (splitChar '/' (abspath cwd p)).filter (fun x => !x.isEmpty),
      x ≠ [] ∧ ∀ c ∈ x, c ≠ '/' := by
  intro x hx
  obtain ⟨hmem, hne⟩ := List.mem_filter.mp hx
  refine ⟨by simpa using hne, ?_⟩
  intro c hc hq
  exact (splitChar_no_sep '/' _ x hmem) (hq ▸ hc)

theorem relpath_good (cwd p : PyStr) :
    hasDS (relpath cwd p) = false ∧ (relpath cwd p).head? ≠ some '/' := by
  simp only [relpath]
  set sl := (splitChar '/' (abspath cwd ".".data)).filter (fun x => !x.isEmpty) with hsl
  set pl := (splitChar '/' (abspath cwd p)).filter (fun x => !x.isEmpty) with hpl
  set i := commonPrefixLen sl pl with hi
  set rl := List.replicate (sl.length - i) "..".data ++ pl.drop i with hrl
  by_cases hre : rl.isEmpty
  · rw [if_pos hre]
    exact ⟨by decide, by decide⟩
  · rw [if_neg hre]
    rw [hrl]
    exact joinComps_good _ (replicate_drop_good _ _ _ (pathList_good cwd p))

theorem getValidName_good (cwd name valid : PyStr)
    (h : getValidName cwd name = .ok valid) :
    hasDS valid = false ∧ valid.head? ≠ some '/' := by
  by_cases h0 : name.isEmpty
  · have hch : getValidName cwd name = .ok [] := by
      simp [getValidName, h0]
    rw [hch] at h
    simp only [Except.ok.injEq] at h
    rw [← h]
    exact ⟨rfl, by simp⟩
  · have h0' : name.isEmpty = false := by simpa using h0
    rw [getValidName_nonempty cwd name h0'] at h
    by_cases hp : "../".data.isPrefixOf (relpath cwd name)
    · rw [if_pos hp] at h
      exact absurd h (by simp)
    · rw [if_neg hp] at h
      simp only [Except.ok.injEq] at h
      rw [← h]
      exact relpath_good cwd name

theorem collapse_bucket_path (bucket workdir valid : PyStr)
    (hb : ∀ x ∈ bucket, x ≠ '/')
    (hw1 : hasDS workdir = false) (hw2 : workdir.head? ≠ some '/')
    (hw3 : workdir.getLast? ≠ some '/')
    (hv1 : hasDS valid = false) (hv2 : valid.head? ≠ some '/') :
    collapseOnce (bucket ++ '/' :: (workdir ++ '/' :: valid)) =
      bucket ++ '/' :: (if workdir.isEmpty then valid else workdir ++ '/' :: valid) := by
  rw [collapse_append_noSlash bucket _ hb]
  congr 1
  cases workdir with
  | nil =>
    simp only [List.nil_append]
    rw [show collapseOnce ('/' :: '/' :: valid) = '/' :: collapseOnce valid by
      simp [collapseOnce]]
    rw [collapse_noDS valid hv1]
    simp
  | cons a w' =>
    have ha : a ≠ '/' := fun hq => hw2 (by simp [hq])
    have hds : hasDS (a :: (w' ++ '/' :: valid)) = false := by
      have h5 := hasDS_append_sep (a :: w') valid hw1 hw3 hv2 hv1
      simpa using h5
    simp only [List.cons_append]
    rw [show collapseOnce ('/' :: a :: (w' ++ '/' :: valid)) =
        '/' :: collapseOnce (a :: (w' ++ '/' :: valid)) by
      simp only [collapseOnce]
      rw [if_neg (fun hq => ha hq.2)]]
    rw [collapse_noDS _ hds]
    simp

/-- `S3Storage.get_valid_name`: the base validator's relative path is
embedded into the fully-qualified address
`'s3://' + f'{bucket}/{workdir}/{valid}'.replace('//', '/')`. -/
def s3GetValidName (bucket workdir cwd name : PyStr) : Except PyErr PyStr :=
  match getValidName cwd name with
  | .error e => .error e
  | .ok valid => .ok ("s3://".data ++ collapseOnce (bucket ++ '/' :: (workdir ++ '/' :: valid)))

/-- `FilesystemStorage.get_valid_name`: `os.path.join(workdir, valid)` with
doubled separators collapsed. -/
def fsGetValidName (workdir cwd name : PyStr) : Except PyErr PyStr :=
  match getValidName cwd name with
  | .error e => .error e
  | .ok valid => .ok (collapseOnce (posixJoin workdir valid))


/-- C5: for every name accepted by the base validator, and any bucket free of
separators and internal prefix with no doubled, leading or trailing
separator (as produced by the `S3Storage` constructor),
`S3Storage.get_valid_name` returns exactly
`s3://{bucket}/{prefix}/{validatedRelativePath}` with the doubled separator
that arises from an empty prefix collapsed to a single one. -/
theorem s3_get_valid_name_format (bucket workdir cwd name valid : PyStr)
    (hok : getValidName cwd name = .ok valid)
    (hb : ∀ x ∈ bucket, x ≠ '/')
    (hw1 : hasDS workdir = false)
    (hw2 : workdir.head? ≠ some '/')
    (hw3 : workdir.getLast? ≠ some '/') :
    s3GetValidName bucket workdir cwd name =
      .ok ("s3://".data ++ bucket ++ '/' ::
        (if workdir.isEmpty then valid else workdir ++ '/' :: valid)) := by
  obtain ⟨hv1, hv2⟩ := getValidName_good cwd name valid hok
  simp only [s3GetValidName, hok]
  rw [collapse_bucket_path bucket workdir valid hb hw1 hw2 hw3 hv1 hv2]
  simp

theorem s3_get_valid_name_format_w :
    getValidName "/a".data "f.txt".data = .ok "f.txt".data ∧
    s3GetValidName "bkt".data "pre".data "/a".data "f.txt".data =
      .ok ("s3://".data ++ "bkt".data ++ '/' ::
        (if "pre".data.isEmpty then "f.txt".data else "pre".data ++ '/' :: "f.txt".data)) :=
  ⟨by decide, s3_get_valid_name_format "bkt".data "pre".data "/a".data "f.txt".data
      "f.txt".data (by decide) (by decide) (by decide) (by decide) (by decide)⟩

abbrev Bytes := List Nat

/-- The payload of a Python read or write: a `str` or a `bytes` value. -/
inductive PyData where
  | bytes (b : Bytes)
  | text (t : PyStr)
  deriving DecidableEq, Repr

/-- UTF-8 encoding of a single code point. -/
def encodeCodePoint (n : Nat) : Bytes :=
  if n < 0x80 then [n]
  else if n < 0x800 then [0xC0 + n / 0x40, 0x80 + n % 0x40]
  else if n < 0x10000 then
    [0xE0 + n / 0x1000, 0x80 + (n / 0x40) % 0x40, 0x80 + n % 0x40]
  else
    [0xF0 + n / 0x40000, 0x80 + (n / 0x1000) % 0x40, 0x80 + (n / 0x40) % 0x40, 0x80 + n % 0x40]

/-- Python `str.encode('utf-8')`. -/
def utf8Encode (s : PyStr) : Bytes := (s.map (fun c => encodeCodePoint c.toNat)).flatten

/-- Strict UTF-8 decoding, Python `bytes.decode('utf-8')`; `none` models a
`UnicodeDecodeError`. -/
def utf8Decode : Bytes → Option PyStr
  | [] => some []
  | b :: rest =>
    if b < 0x80 then (utf8Decode rest).map (fun t => Char.ofNat b :: t)
    else if 0xC2 ≤ b ∧ b ≤ 0xDF then
      match rest with
      | b2 :: rest2 =>
        if 0x80 ≤ b2 ∧ b2 ≤ 0xBF then
          (utf8Decode rest2).map (fun t => Char.ofNat ((b - 0xC0) * 0x40 + (b2 - 0x80)) :: t)
        else none
      | [] => none
    else if 0xE0 ≤ b ∧ b ≤ 0xEF then
      match rest with
      | b2 :: b3 :: rest3 =>
        if (0x80 ≤ b2 ∧ b2 ≤ 0xBF) ∧ (0x80 ≤ b3 ∧ b3 ≤ 0xBF) ∧
           (b = 0xE0 → 0xA0 ≤ b2) ∧ (b = 0xED → b2 ≤ 0x9F) then
          (utf8Decode rest3).map
            (fun t => Char.ofNat ((b - 0xE0) * 0x1000 + (b2 - 0x80) * 0x40 + (b3 - 0x80)) :: t)
        else none
      | _ => none
    else if 0xF0 ≤ b ∧ b ≤ 0xF4 then
      match rest with
      | b2 :: b3 :: b4 :: rest4 =>
        if (0x80 ≤ b2 ∧ b2 ≤ 0xBF) ∧ (0x80 ≤ b3 ∧ b3 ≤ 0xBF) ∧ (0x80 ≤ b4 ∧ b4 ≤ 0xBF) ∧
           (b = 0xF0 → 0x90 ≤ b2) ∧ (b = 0xF4 → b2 ≤ 0x8F) then
          (utf8Decode rest4).map
            (fun t => Char.ofNat ((b - 0xF0) * 0x40000 + (b2 - 0x80) * 0x1000 +
              (b3 - 0x80) * 0x40 + (b4 - 0x80)) :: t)
        else none
      | _ => none
    else none


/-- A `File` handle from `files.py`: a name in backend addressing plus an
open mode. -/
structure PyFile where
  name : PyStr
  mode : PyStr
  deriving DecidableEq, Repr

/-- Abstract content map: filesystem path (or in-bucket key) to raw bytes. -/
abbrev FSMap := List (PyStr × Bytes)

def lookupFS (fs : FSMap) (p : PyStr) : Option Bytes :=
  match fs.find? (fun kv => kv.1 == p) with
  | some kv => some kv.2
  | none => none

/-- Python `c in mode`. -/
def modeHas (m : PyStr) (c : Char) : Bool := m.contains c

/-- Python `open` resolves a relative path against the process working
directory. -/
def resolveOpen (cwd p : PyStr) : PyStr :=
  if "/".data.isPrefixOf p then p else cwd ++ '/' :: p

/-- `FilesystemStorage.read_into_stream`: opens the file name in the given
mode and loads it fully; text mode decodes the raw bytes (UTF-8). -/
def fsReadIntoStream (cwd : PyStr) (fs : FSMap) (fileName mode : PyStr) : Except PyErr PyData :=
  match lookupFS fs (resolveOpen cwd fileName) with
  | none => .error .fileNotFound
  | some b =>
    if modeHas mode 'b' then .ok (.bytes b)
    else
      match utf8Decode b with
      | some t => .ok (.text t)
      | none => .error .unicodeDecode

/-- `File.read` bound to a `FilesystemStorage`: checks the mode allows
reading, then calls `read_into_stream(self.name)` WITHOUT forwarding the
handle's mode, so the stream is always opened in the default text mode
`'r'`; a bytes result would be decoded, but the filesystem branch always
yields text (or fails decoding) already. -/
def fsFileRead (cwd : PyStr) (fs : FSMap) (f : PyFile) : Except PyErr PyData :=
  if !(modeHas f.mode 'r') && !(modeHas f.mode '+') then .error .ioMode
  else
    match fsReadIntoStream cwd fs f.name "r".data with
    | .error e => .error e
    | .ok (.bytes b) =>
      if !(modeHas f.mode 'b') then
        match utf8Decode b with
        | some t => .ok (.text t)
        | none => .error .unicodeDecode
      else .ok (.bytes b)
    | .ok (.text t) => .ok (.text t)

/-- `FilesystemStorage._write`: re-normalizes the name through `safe_join`
and overwrites the target with the stream's bytes.  `prepare_path` is
modelled from the spec: it is defined in `utils.py` which is not under
src/; the spec says it only ensures parent directories exist, a no-op in
this map-based filesystem model. -/
def fsWriteStorage (workdir : PyStr) (fs : FSMap) (fileName : PyStr) (b : Bytes) :
    Except PyErr FSMap :=
  match normalizeName workdir fileName with
  | .error e => .error e
  | .ok p => .ok ((p, b) :: fs)

/-- `File.write` bound to a `FilesystemStorage`: checks the mode allows
writing, UTF-8-encodes string payloads, and hands the bytes to `_write`. -/
def fsFileWrite (workdir : PyStr) (fs : FSMap) (f : PyFile) (data : PyData) :
    Except PyErr FSMap :=
  if !(modeHas f.mode 'w') && !(modeHas f.mode 'a') && !(modeHas f.mode '+') then
    .error .ioMode
  else
    fsWriteStorage workdir fs f.name
      (match data with
       | .text s => utf8Encode s
       | .bytes b => b)

/-- Python `text.partition(sep)` for a one-character separator, keeping the
before/after parts (`('x', '', '')`-style when the separator is absent). -/
def partitionChar (c : Char) : PyStr → PyStr × PyStr
  | [] => ([], [])
  | a :: rest =>
    if a = c then ([], rest)
    else
      let p := partitionChar c rest
      (a :: p.1, p.2)

/-- `_strip_prefix(text, prefix)`. -/
def stripPrefixIf (text pat : PyStr) : PyStr :=
  if pat.isPrefixOf text then text.drop pat.length else text

/-- `_strip_s3_path`: asserts the `s3://` scheme then splits bucket from key
at the first separator. -/
def stripS3Path (path : PyStr) : Except PyErr (PyStr × PyStr) :=
  if "s3://".data.isPrefixOf path then .ok (partitionChar '/' (path.drop 5))
  else .error .assertionError

/-- `S3Storage.read_into_stream` over an abstract bucket store: downloads
the object at the in-bucket key into a binary buffer. -/
def s3ReadIntoStream (bucket : PyStr) (store : FSMap) (filePath : PyStr) :
    Except PyErr PyData :=
  match stripS3Path filePath with
  | .error e => .error e
  | .ok (bkt, key) =>
    if !(bkt == bucket) then .error .assertionError
    else
      match lookupFS store key with
      | none => .error .fileNotFound
      | some b => .ok (.bytes b)

/-- `File.read` bound to an `S3Storage`: the stream yields bytes; a text
mode handle decodes them with the handle's UTF-8 encoding. -/
def s3FileRead (bucket : PyStr) (store : FSMap) (f : PyFile) : Except PyErr PyData :=
  if !(modeHas f.mode 'r') && !(modeHas f.mode '+') then .error .ioMode
  else
    match s3ReadIntoStream bucket store f.name with
    | .error e => .error e
    | .ok (.bytes b) =>
      if !(modeHas f.mode 'b') then
        match utf8Decode b with
        | some t => .ok (.text t)
        | none => .error .unicodeDecode
      else .ok (.bytes b)
    | .ok (.text t) => .ok (.text t)

/-- Whether `p` occurs as a contiguous substring of the second argument. -/
def listIsInfix (p : PyStr) : PyStr → Bool
  | [] => p.isEmpty
  | c :: rest => p.isPrefixOf (c :: rest) || listIsInfix p rest

/-- Python `str.replace(pat, rep)` (all occurrences, left to right), written
with explicit fuel so the kernel can evaluate it; every use has a nonempty
pattern, and each step consumes at least one character, so fuel equal to the
string length is exact. -/
def replaceFuel (pat rep : PyStr) : Nat → PyStr → PyStr
  | 0, s => s
  | fuel + 1, s =>
    match s with
    | [] => []
    | c :: rest =>
      if pat ≠ [] ∧ pat.isPrefixOf (c :: rest) then
        rep ++ replaceFuel pat rep fuel ((c :: rest).drop pat.length)
      else c :: replaceFuel pat rep fuel rest

def pyReplaceAll (s pat rep : PyStr) : PyStr := replaceFuel pat rep s.length s

/-- `S3Storage._normalize_name`: asserts the name lies under
`s3://{bucket}/{workdir}/` and contains no `'../'`, then strips every
occurrence of `s3://{bucket}/` to recover the in-bucket key. -/
def s3NormalizeName (bucket workdir name : PyStr) : Except PyErr PyStr :=
  if !(("s3://".data ++ bucket ++ '/' :: (workdir ++ ['/'])).isPrefixOf name) then
    .error .assertionError
  else if listIsInfix "../".data name then .error .assertionError
  else .ok (pyReplaceAll name ("s3://".data ++ bucket ++ ['/']) [])

/-- `S3Storage._write`: uploads the stream to the key recovered by
`_normalize_name`. -/
def s3WriteStorage (bucket workdir : PyStr) (store : FSMap) (fileName : PyStr) (b : Bytes) :
    Except PyErr FSMap :=
  match s3NormalizeName bucket workdir fileName with
  | .error e => .error e
  | .ok key => .ok ((key, b) :: store)

/-- `File.write` bound to an `S3Storage`. -/
def s3FileWrite (bucket workdir : PyStr) (store : FSMap) (f : PyFile) (data : PyData) :
    Except PyErr FSMap :=
  if !(modeHas f.mode 'w') && !(modeHas f.mode 'a') && !(modeHas f.mode '+') then
    .error .ioMode
  else
    s3WriteStorage bucket workdir store f.name
      (match data with
       | .text s => utf8Encode s
       | .bytes b => b)

/-- Basename of a path: the part after the last separator. -/
def basename (p : PyStr) : PyStr := (p.reverse.takeWhile (fun c => c ≠ '/')).reverse

/-- The walked path with a guaranteed trailing separator, used to decide
which stored files lie below a directory. -/
def dirPref (p : PyStr) : PyStr := if "/".data.isSuffixOf p then p else p ++ ['/']

/-- Modelled from the spec: `md5s3` lives in `utils.py`, which is not under
src/; the spec treats the content fingerprint as a pluggable external hash
used only for identity/change detection, so it is modelled as the identity
on the content bytes. -/
def md5s3 (b : Bytes) : Bytes := b

/-- The generator body of `FilesystemStorage.list` in its directory branch:
for every file below the walked directory it opens `open(file, 'rb')` where
`file` is the BARE BASENAME from `os.walk` - resolved against the process
working directory, not against the walked directory - and pairs the hash of
whatever that opens with `_strip_prefix(os.path.join(root, file),
fixed_path)`. -/
def collectEntries (cwd : PyStr) (fs : FSMap) (fixed : PyStr) :
    FSMap → Except PyErr (List (Bytes × PyStr))
  | [] => .ok []
  | (key, _) :: rest =>
    match lookupFS fs (resolveOpen cwd (basename key)) with
    | none => .error .fileNotFound
    | some content =>
      match collectEntries cwd fs fixed rest with
      | .error e => .error e
      | .ok l => .ok ((md5s3 content, stripPrefixIf key fixed) :: l)

/-- `FilesystemStorage.list`: normalizes the queried path; on a directory it
walks all files below it (the buggy per-file open included); on a single
existing file it yields one entry with the empty relative path; otherwise it
yields nothing. -/
def fsStorageList (cwd workdir : PyStr) (fs : FSMap) (path : PyStr) :
    Except PyErr (List (Bytes × PyStr)) :=
  match normalizeName workdir path with
  | .error e => .error e
  | .ok fixed =>
    if fs.any (fun kv => (dirPref fixed).isPrefixOf kv.1) then
      collectEntries cwd fs fixed (fs.filter (fun kv => (dirPref fixed).isPrefixOf kv.1))
    else if (lookupFS fs fixed).isSome then
      .ok [(md5s3 ((lookupFS fs fixed).getD []), [])]
    else .ok []

/-- The response of a boto3 `Object.delete` call, as far as
`S3Storage.delete` inspects it: whether an `'Errors'` entry is present, and
the `'DeleteMarker'` entry when there is one. -/
structure S3DeleteResponse where
  errorsPresent : Bool
  deleteMarker : Option Bool
  deriving DecidableEq, Repr

/-- The response handling of `S3Storage.delete`:
`if 'Errors' in result or result['DeleteMarker'] != True: raise
RuntimeError(...)`.  Evaluation order matters: when no `'Errors'` entry is
present the subscript `result['DeleteMarker']` runs, and raises `KeyError`
if the response carries no delete marker at all. -/
def s3DeleteCheck (r : S3DeleteResponse) : Except PyErr S3DeleteResponse :=
  if r.errorsPresent then .error .runtime
  else
    match r.deleteMarker with
    | none => .error .keyError
    | some v => if v = true then .ok r else .error .runtime


theorem fsReadIntoStream_ne_ioMode (cwd : PyStr) (fs : FSMap) (n m : PyStr) :
    fsReadIntoStream cwd fs n m ≠ .error .ioMode := by
  simp only [fsReadIntoStream]
  cases h : lookupFS fs (resolveOpen cwd n) with
  | none => simp
  | some b =>
    dsimp only
    by_cases hb : modeHas m 'b'
    · rw [if_pos hb]
      simp
    · rw [if_neg hb]
      cases hd : utf8Decode b <;> simp

theorem normalizeName_err (workdir n : PyStr) (e : PyErr)
    (h : normalizeName workdir n = .error e) : e = .suspicious := by
  simp only [normalizeName] at h
  cases hs : safe_join workdir [n] with
  | ok p =>
    rw [hs] at h
    exact absurd h (by simp)
  | error e2 =>
    rw [hs] at h
    injection h with h2
    exact h2.symm

theorem fsWriteStorage_ne_ioMode (workdir : PyStr) (fs : FSMap) (n : PyStr) (b : Bytes) :
    fsWriteStorage workdir fs n b ≠ .error .ioMode := by
  simp only [fsWriteStorage]
  cases h : normalizeName workdir n with
  | error e =>
    intro heq
    injection heq with h2
    rw [h2] at h
    exact absurd (normalizeName_err workdir n _ h) (by simp)
  | ok p => simp

theorem stripS3Path_ne_ioMode (p : PyStr) : stripS3Path p ≠ .error .ioMode := by
  simp only [stripS3Path]
  split <;> simp

theorem s3ReadIntoStream_ne_ioMode (bucket : PyStr) (store : FSMap) (p : PyStr) :
    s3ReadIntoStream bucket store p ≠ .error .ioMode := by
  simp only [s3ReadIntoStream]
  cases h : stripS3Path p with
  | error e =>
    intro heq
    injection heq with h2
    rw [h2] at h
    exact stripS3Path_ne_ioMode p h
  | ok pr =>
    obtain ⟨bkt, key⟩ := pr
    dsimp only
    by_cases hb : (!(bkt == bucket)) = true
    · rw [if_pos hb]
      simp
    · rw [if_neg hb]
      cases hl : lookupFS store key <;> simp

theorem s3NormalizeName_err (bucket workdir n : PyStr) (e : PyErr)
    (h : s3NormalizeName bucket workdir n = .error e) : e = .assertionError := by
  simp only [s3NormalizeName] at h
  split at h
  · injection h with h2
    exact h2.symm
  · split at h
    · injection h with h2
      exact h2.symm
    · exact absurd h (by simp)

theorem s3WriteStorage_ne_ioMode (bucket workdir : PyStr) (store : FSMap) (n : PyStr)
    (b : Bytes) : s3WriteStorage bucket workdir store n b ≠ .error .ioMode := by
  simp only [s3WriteStorage]
  cases h : s3NormalizeName bucket workdir n with
  | error e =>
    intro heq
    injection heq with h2
    rw [h2] at h
    exact absurd (s3NormalizeName_err bucket workdir n _ h) (by simp)
  | ok p => simp

theorem fsFileRead_ioMode_iff (cwd : PyStr) (fs : FSMap) (f : PyFile) :
    fsFileRead cwd fs f = .error .ioMode ↔
      modeHas f.mode 'r' = false ∧ modeHas f.mode '+' = false := by
  by_cases hc : (!(modeHas f.mode 'r') && !(modeHas f.mode '+')) = true
  · have hc' : modeHas f.mode 'r' = false ∧ modeHas f.mode '+' = false := by
      simpa using hc
    have he : fsFileRead cwd fs f = .error .ioMode := by
      simp only [fsFileRead]
      rw [if_pos hc]
    exact ⟨fun _ => hc', fun _ => he⟩
  · have hcf : (!(modeHas f.mode 'r') && !(modeHas f.mode '+')) = false := by
      simpa using hc
    have hne : fsFileRead cwd fs f ≠ .error .ioMode := by
      simp only [fsFileRead]
      rw [if_neg (by rw [hcf]; exact Bool.false_ne_true)]
      cases h : fsReadIntoStream cwd fs f.name "r".data with
      | error e =>
        intro heq
        injection heq with h2
        rw [h2] at h
        exact fsReadIntoStream_ne_ioMode cwd fs f.name _ h
      | ok d =>
        cases d with
        | text t => simp
        | bytes b =>
          dsimp only
          by_cases hb : (!(modeHas f.mode 'b')) = true
          · rw [if_pos hb]
            cases hd : utf8Decode b <;> simp
          · rw [if_neg hb]
            simp
    constructor
    · intro h
      exact absurd h hne
    · intro h
      exfalso
      apply hc
      simp [h.1, h.2]

theorem fsFileWrite_ioMode_iff (workdir : PyStr) (fs : FSMap) (f : PyFile) (d : PyData) :
    fsFileWrite workdir fs f d = .error .ioMode ↔
      modeHas f.mode 'w' = false ∧ modeHas f.mode 'a' = false ∧
        modeHas f.mode '+' = false := by
  by_cases hc :
      (!(modeHas f.mode 'w') && !(modeHas f.mode 'a') && !(modeHas f.mode '+')) = true
  · have hc' : modeHas f.mode 'w' = false ∧ modeHas f.mode 'a' = false ∧
        modeHas f.mode '+' = false := by
      simpa [and_assoc] using hc
    have he : fsFileWrite workdir fs f d = .error .ioMode := by
      simp only [fsFileWrite]
      rw [if_pos hc]
    exact ⟨fun _ => hc', fun _ => he⟩
  · have hcf :
        (!(modeHas f.mode 'w') && !(modeHas f.mode 'a') && !(modeHas f.mode '+')) = false := by
      simpa using hc
    have hne : fsFileWrite workdir fs f d ≠ .error .ioMode := by
      simp only [fsFileWrite]
      rw [if_neg (by rw [hcf]; exact Bool.false_ne_true)]
      exact fsWriteStorage_ne_ioMode workdir fs f.name _
    constructor
    · intro h
      exact absurd h hne
    · intro h
      exfalso
      apply hc
      simp [h.1, h.2.1, h.2.2]

theorem s3FileRead_ioMode_iff (bucket : PyStr) (store : FSMap) (f : PyFile) :
    s3FileRead bucket store f = .error .ioMode ↔
      modeHas f.mode 'r' = false ∧ modeHas f.mode '+' = false := by
  by_cases hc : (!(modeHas f.mode 'r') && !(modeHas f.mode '+')) = true
  · have hc' : modeHas f.mode 'r' = false ∧ modeHas f.mode '+' = false := by
      simpa using hc
    have he : s3FileRead bucket store f = .error .ioMode := by
      simp only [s3FileRead]
      rw [if_pos hc]
    exact ⟨fun _ => hc', fun _ => he⟩
  · have hcf : (!(modeHas f.mode 'r') && !(modeHas f.mode '+')) = false := by
      simpa using hc
    have hne : s3FileRead bucket store f ≠ .error .ioMode := by
      simp only [s3FileRead]
      rw [if_neg (by rw [hcf]; exact Bool.false_ne_true)]
      cases h : s3ReadIntoStream bucket store f.name with
      | error e =>
        intro heq
        injection heq with h2
        rw [h2] at h
        exact s3ReadIntoStream_ne_ioMode bucket store f.name h
      | ok d =>
        cases d with
        | text t => simp
        | bytes b =>
          dsimp only
          by_cases hb : (!(modeHas f.mode 'b')) = true
          · rw [if_pos hb]
            cases hd : utf8Decode b <;> simp
          · rw [if_neg hb]
            simp
    constructor
    · intro h
      exact absurd h hne
    · intro h
      exfalso
      apply hc
      simp [h.1, h.2]

theorem s3FileWrite_ioMode_iff (bucket workdir : PyStr) (store : FSMap) (f : PyFile)
    (d : PyData) :
    s3FileWrite bucket workdir store f d = .error .ioMode ↔
      modeHas f.mode 'w' = false ∧ modeHas f.mode 'a' = false ∧
        modeHas f.mode '+' = false := by
  by_cases hc :
      (!(modeHas f.mode 'w') && !(modeHas f.mode 'a') && !(modeHas f.mode '+')) = true
  · have hc' : modeHas f.mode 'w' = false ∧ modeHas f.mode 'a' = false ∧
        modeHas f.mode '+' = false := by
      simpa [and_assoc] using hc
    have he : s3FileWrite bucket workdir store f d = .error .ioMode := by
      simp only [s3FileWrite]
      rw [if_pos hc]
    exact ⟨fun _ => hc', fun _ => he⟩
  · have hcf :
        (!(modeHas f.mode 'w') && !(modeHas f.mode 'a') && !(modeHas f.mode '+')) = false := by
      simpa using hc
    have hne : s3FileWrite bucket workdir store f d ≠ .error .ioMode := by
      simp only [s3FileWrite]
      rw [if_neg (by rw [hcf]; exact Bool.false_ne_true)]
      exact s3WriteStorage_ne_ioMode bucket workdir store f.name _
    constructor
    · intro h
      exact absurd h hne
    · intro h
      exfalso
      apply hc
      simp [h.1, h.2.1, h.2.2]

/-- C6: on a File handle, `read()` fails with the I/O-mode error exactly for
modes containing neither `'r'` nor `'+'`, and `write()` fails with it
exactly for modes containing none of `'w'`, `'a'`, `'+'`; with the
respective indicator present the mode error never occurs (other errors
remain possible), on both the filesystem and the object-storage backend. -/
theorem file_mode_errors (cwd workdir bucket : PyStr) (fs store : FSMap)
    (f : PyFile) (d : PyData) :
    (fsFileRead cwd fs f = .error .ioMode ↔
       modeHas f.mode 'r' = false ∧ modeHas f.mode '+' = false) ∧
    (fsFileWrite workdir fs f d = .error .ioMode ↔
       modeHas f.mode 'w' = false ∧ modeHas f.mode 'a' = false ∧
         modeHas f.mode '+' = false) ∧
    (s3FileRead bucket store f = .error .ioMode ↔
       modeHas f.mode 'r' = false ∧ modeHas f.mode '+' = false) ∧
    (s3FileWrite bucket workdir store f d = .error .ioMode ↔
       modeHas f.mode 'w' = false ∧ modeHas f.mode 'a' = false ∧
         modeHas f.mode '+' = false) :=
  ⟨fsFileRead_ioMode_iff cwd fs f, fsFileWrite_ioMode_iff workdir fs f d,
   s3FileRead_ioMode_iff bucket store f, s3FileWrite_ioMode_iff bucket workdir store f d⟩

/-- C7 (code bug): on a directory, `FilesystemStorage.list` opens
`open(file, 'rb')` with the bare basename from `os.walk`, which resolves
against the process working directory rather than the walked directory: with
workdir `/w` holding `a.txt` and the process cwd at `/home`, listing raises
`FileNotFoundError` instead of yielding the hash of `/w/a.txt`, and when
`/home/a.txt` happens to exist the yielded fingerprint is the hash of that
unrelated file (here contents `[9]`, not `[1,2,3]`).  The single-file and
nonexistent-path behaviors match the claim. -/
theorem fs_list_dir_bug :
    fsStorageList "/home".data "/w".data [("/w/a.txt".data, [1, 2, 3])] "".data =
        .error .fileNotFound ∧
    fsStorageList "/home".data "/w".data
        [("/w/a.txt".data, [1, 2, 3]), ("/home/a.txt".data, [9])] "".data =
        .ok [([9], "a.txt".data)] ∧
    fsStorageList "/home".data "/w".data [("/w/a.txt".data, [1, 2, 3])] "a.txt".data =
        .ok [([1, 2, 3], [])] ∧
    fsStorageList "/home".data "/w".data [("/w/a.txt".data, [1, 2, 3])] "nope".data =
        .ok [] := by
  decide

/-- C8 (code bug): on the object-storage backend the byte round trip is
exact: writing any byte sequence `b` through a `wb` handle and reading it
back through an `rb` handle yields exactly `b`.  On the filesystem backend
it is not: `File.read` does not forward the handle's mode to
`read_into_stream`, so the file is opened in the default text mode and
UTF-8-decoded; reading back the written byte `0xFF` raises
`UnicodeDecodeError` instead of returning the bytes. -/
theorem round_trip_read_write :
    (∀ b : Bytes,
      (s3FileWrite "bkt".data "pre".data []
          ⟨"s3://bkt/pre/f.txt".data, "wb".data⟩ (.bytes b)).bind
        (fun st => s3FileRead "bkt".data st ⟨"s3://bkt/pre/f.txt".data, "rb".data⟩) =
      .ok (.bytes b)) ∧
    ((fsFileWrite "/w".data [] ⟨"/w/f.txt".data, "wb".data⟩ (.bytes [0xFF])).bind
        (fun st => fsFileRead "/home".data st ⟨"/w/f.txt".data, "rb".data⟩) =
      .error .unicodeDecode) := by
  constructor
  · intro b
    rfl
  · rfl

/-- C9, counterexample: a delete response that carries neither an `Errors`
entry nor any `DeleteMarker` entry "does not carry a true delete-marker",
so the claim demands `RuntimeError`, but the subscript
`result['DeleteMarker']` raises `KeyError` instead. -/
theorem s3_delete_missing_marker_cex :
    s3DeleteCheck ⟨false, none⟩ = .error .keyError ∧
    s3DeleteCheck ⟨false, none⟩ ≠ .error .runtime := by
  decide

/-- C9 (amended): `S3Storage.delete` raises `RuntimeError` exactly when the
response reports errors or carries a delete-marker different from `True`;
when the response carries no delete-marker entry at all (and no errors) it
raises `KeyError` instead; and it returns the response unchanged exactly
when no errors are present and the delete-marker is `True`. -/
theorem s3_delete_check_cases (r : S3DeleteResponse) :
    (s3DeleteCheck r = .error .runtime ↔
       r.errorsPresent = true ∨ r.deleteMarker = some false) ∧
    (s3DeleteCheck r = .ok r ↔
       r.errorsPresent = false ∧ r.deleteMarker = some true) ∧
    (s3DeleteCheck r = .error .keyError ↔
       r.errorsPresent = false ∧ r.deleteMarker = none) := by
  obtain ⟨e, m⟩ := r
  rcases m with _ | v
  · cases e <;> decide
  · cases e <;> cases v <;> decide
